import Mathlib

/-!
Verification of the content aggregation layer of the `astro-playground` blog
repository: `src/utils/data.ts` (`getPublishedBlogs`, `getCategoriesWithBlogs`,
`getTagsWithBlogs`), the content-collection schema (`defineCollection` for
`blog` and `category`), and the category constants in `src/consts.ts`.

The content store is modelled as an explicit list parameter (the snapshot that
`getCollection` returns). Dates are modelled as integers (timestamps); lodash
`_.orderBy(..., ["desc"])` is a stable descending sort and is embedded as
`List.insertionSort` with the non-strict "later or equal date first" relation,
which is extensionally the unique stable sort for that total preorder.
The JavaScript object used as `tagMap` is modelled as an insertion-ordered
association list, and `Object.entries` with the ECMAScript own-property-key
order: array-index keys (canonical decimal strings below 2^32 - 1) first in
ascending numeric order, then the remaining keys in insertion order.
-/

/-- A `category` collection entry: the loader `() => [...BLOG_CATEGORIES]`
yields records with `id`, `slug`, `name` (the schema validates `slug` and
`name`; `id` keys the entry). -/
structure Category where
  id : String
  slug : String
  name : String
deriving DecidableEq, Repr

/-- `BLOG_CATEGORIES` from `src/consts.ts`. -/
def blogCategories : List Category :=
  [{ id := "tech", slug := "tech", name := "Tech" },
   { id := "scratch", slug := "scratch", name := "Scratch" },
   { id := "design", slug := "design", name := "Design" }]

/-- The validated frontmatter of a blog entry, per the `blog` collection
schema. `pubDate`/`updatedDate` are date values modelled as integers.
`category` is the `reference("category")` modelled by the referenced id
(the code reads `blog.data.category.id`). `tags` is optional with no
default, so a validated entry may still lack it (`none`). -/
structure PostData where
  title : String
  description : String
  pubDate : Int
  updatedDate : Option Int
  isDraft : Bool
  heroImage : Option String
  category : String
  tags : Option (List String)
deriving DecidableEq, Repr

/-- A `blog` collection entry as returned by `getCollection("blog")`:
an id plus validated data (rendering-only fields are omitted). -/
structure Post where
  id : String
  data : PostData
deriving DecidableEq, Repr

/-- The descending-date order used by
`_.orderBy(..., [blog => blog.data.pubDate], ["desc"])`: `a` may come
before `b` when `a`'s publish date is at least `b`'s. -/
def byPubDateDesc (a b : Post) : Prop :=
  b.data.pubDate ≤ a.data.pubDate

instance : DecidableRel byPubDateDesc :=
  fun a b => Int.decLe _ _

instance : IsTotal Post byPubDateDesc :=
  ⟨fun a b => Int.le_total b.data.pubDate a.data.pubDate⟩

instance : IsTrans Post byPubDateDesc :=
  ⟨fun _ _ _ h1 h2 => le_trans h2 h1⟩

/-- `getPublishedBlogs` from `src/utils/data.ts`: drop entries with
`isDraft` and stable-sort the rest by `pubDate` descending. -/
def getPublishedBlogs (blogs : List Post) : List Post :=
  (blogs.filter (fun b => !b.data.isDraft)).insertionSort byPubDateDesc

/-- One element of `getCategoriesWithBlogs`'s result: `{ category, blogs }`. -/
structure CategoryWithBlogs where
  category : Category
  blogs : List Post
deriving DecidableEq, Repr

/-- `getCategoriesWithBlogs` from `src/utils/data.ts`: for each category
entry, the published posts whose `category.id` equals the entry's id. -/
def getCategoriesWithBlogs (blogs : List Post) (categories : List Category) :
    List CategoryWithBlogs :=
  categories.map (fun category =>
    { category := category
      blogs := (getPublishedBlogs blogs).filter
        (fun blog => blog.data.category == category.id) })

/-- One step of `tagMap[tag].push(blog)` (creating `tagMap[tag] = []` first
when absent): on an insertion-ordered association list, append `b` to the
entry for `t`, or add a new entry `(t, [b])` at the end. -/
def addToTagMap (m : List (String × List Post)) (t : String) (b : Post) :
    List (String × List Post) :=
  match m with
  | [] => [(t, [b])]
  | (k, v) :: rest =>
    if k = t then (k, v ++ [b]) :: rest else (k, v) :: addToTagMap rest t b

/-- The two nested `forEach` loops of `getTagsWithBlogs` building `tagMap`
over the published posts (with `blog.data.tags ?? []`). -/
def buildTagMap (blogs : List Post) : List (String × List Post) :=
  blogs.foldl
    (fun m blog => (blog.data.tags.getD []).foldl
      (fun m2 tag => addToTagMap m2 tag blog) m)
    []

/-- Parse a canonical decimal numeral (nonempty, digits only, no leading
zero except `"0"` itself), accumulating into `acc`. -/
def digitsToNat (acc : Nat) : List Char → Option Nat
  | [] => some acc
  | c :: cs =>
    if '0' ≤ c ∧ c ≤ '9' then digitsToNat (acc * 10 + (c.toNat - 48)) cs
    else none

/-- The canonical-numeral reading of a string, if any: `"0"`, or a digit
string not starting with `'0'`. -/
def strToNatCanonical (s : String) : Option Nat :=
  match s.data with
  | [] => none
  | ['0'] => some 0
  | c :: cs => if c = '0' then none else digitsToNat 0 (c :: cs)

/-- ECMAScript array-index test for an object key: the canonical decimal
representation of an integer below 2^32 - 1. `Object.entries` lists such
keys first, in ascending numeric order. -/
def isArrayIndexKey (s : String) : Bool :=
  match strToNatCanonical s with
  | some n => decide (n < 4294967295)
  | none => false

/-- Ascending order on array-index keys by their numeric value. -/
def byNumericKey (e f : String × List Post) : Prop :=
  (strToNatCanonical e.1).getD 0 ≤ (strToNatCanonical f.1).getD 0

instance : DecidableRel byNumericKey :=
  fun e f => Nat.decLe _ _

instance : IsTotal (String × List Post) byNumericKey :=
  ⟨fun e f => Nat.le_total _ _⟩

instance : IsTrans (String × List Post) byNumericKey :=
  ⟨fun _ _ _ h1 h2 => le_trans h1 h2⟩

/-- `Object.entries` on the modelled object: array-index keys first in
ascending numeric order, then the remaining keys in insertion order. -/
def jsObjectEntries (m : List (String × List Post)) :
    List (String × List Post) :=
  (m.filter (fun kv => isArrayIndexKey kv.1)).insertionSort byNumericKey ++
    m.filter (fun kv => !isArrayIndexKey kv.1)

/-- One element of `getTagsWithBlogs`'s result: `{ tag, blogs }`. -/
structure TagWithBlogs where
  tag : String
  blogs : List Post
deriving DecidableEq, Repr

/-- `getTagsWithBlogs` from `src/utils/data.ts`: build `tagMap` over the
published posts, then `Object.entries(tagMap).map(([tag, blogs]) => ...)`. -/
def getTagsWithBlogs (blogs : List Post) : List TagWithBlogs :=
  (jsObjectEntries (buildTagMap (getPublishedBlogs blogs))).map
    (fun kv => { tag := kv.1, blogs := kv.2 })

/-- The list of tag-occurrence events `(tag, blog)` that the nested loops
of `getTagsWithBlogs` process, in processing order. -/
def tagEvents (blogs : List Post) : List (String × Post) :=
  blogs.flatMap (fun blog => (blog.data.tags.getD []).map (fun tag => (tag, blog)))

/-- Folding the tag-occurrence events into an association list. -/
def tagFold (m : List (String × List Post)) :
    List (String × Post) → List (String × List Post)
  | [] => m
  | (t, b) :: evs => tagFold (addToTagMap m t b) evs

/-- The posts carrying tag `t`, with multiplicity, in event order. -/
def bucketOf (evs : List (String × Post)) (t : String) : List Post :=
  (evs.filter (fun e => e.1 == t)).map (fun e => e.2)

/-- The distinct elements of a list in order of first appearance. -/
def firstOccurrences : List String → List String
  | [] => []
  | t :: rest => t :: firstOccurrences (rest.filter (fun s => s ≠ t))
termination_by l => l.length
decreasing_by
  simpa using Nat.lt_succ_of_le (List.length_filter_le _ _)

/-- A raw frontmatter value as the zod schema receives it. The YAML parser
yields strings, booleans, arrays and date scalars; a date-coercible input
(`z.coerce.date()` succeeds on it) is modelled as an already-normalized
`RawValue.date`. -/
inductive RawValue where
  | str (s : String)
  | bool (b : Bool)
  | date (d : Int)
  | list (xs : List RawValue)

/-- A raw parsed-frontmatter record for a blog entry: each schema field is
present (`some`) or absent (`none`). -/
structure RawPost where
  title : Option RawValue
  description : Option RawValue
  pubDate : Option RawValue
  updatedDate : Option RawValue
  isDraft : Option RawValue
  heroImage : Option RawValue
  category : Option RawValue
  tags : Option RawValue

/-- `z.string()`: requires a present string value; anything else
(absent, wrong type) fails. The empty string is a string. -/
def parseStr : Option RawValue → Option String
  | some (RawValue.str s) => some s
  | _ => none

/-- `z.coerce.date()`: requires a present date-coercible value. -/
def parseDate : Option RawValue → Option Int
  | some (RawValue.date d) => some d
  | _ => none

/-- `z.coerce.date().optional()`: absent is accepted as `none`. -/
def parseOptDate : Option RawValue → Option (Option Int)
  | none => some none
  | some (RawValue.date d) => some (some d)
  | _ => none

/-- `z.boolean().default(false)`: absent becomes `false`; a present value
must be a boolean. -/
def parseBoolDefaultFalse : Option RawValue → Option Bool
  | none => some false
  | some (RawValue.bool b) => some b
  | _ => none

/-- `image().optional()`: absent is accepted as `none`; a present value is
modelled as an image path string. -/
def parseOptImage : Option RawValue → Option (Option String)
  | none => some none
  | some (RawValue.str s) => some (some s)
  | _ => none

/-- `z.array(z.string())` element check. -/
def parseStrList : List RawValue → Option (List String)
  | [] => some []
  | RawValue.str s :: rest => (parseStrList rest).map (fun l => s :: l)
  | _ => none

/-- `z.array(z.string()).optional()`: absent is accepted as `none` — there
is no `.default([])`, so no normalization to an empty list happens here. -/
def parseOptTags : Option RawValue → Option (Option (List String))
  | none => some none
  | some (RawValue.list xs) => (parseStrList xs).map some
  | _ => none

/-- `reference("category")`: at schema-parse time a string id; resolution
is lazy and not part of validation. -/
def parseCategoryRef : Option RawValue → Option String
  | some (RawValue.str s) => some s
  | _ => none

/-- The `blog` collection schema as a validation function: every field is
checked per its zod combinator; the record validates only when all fields
do. -/
def parseBlog (r : RawPost) : Option PostData :=
  (parseStr r.title).bind fun title =>
  (parseStr r.description).bind fun description =>
  (parseDate r.pubDate).bind fun pubDate =>
  (parseOptDate r.updatedDate).bind fun updatedDate =>
  (parseBoolDefaultFalse r.isDraft).bind fun isDraft =>
  (parseOptImage r.heroImage).bind fun heroImage =>
  (parseCategoryRef r.category).bind fun category =>
  (parseOptTags r.tags).map fun tags =>
    { title := title, description := description, pubDate := pubDate,
      updatedDate := updatedDate, isDraft := isDraft, heroImage := heroImage,
      category := category, tags := tags }

/-- A published post whose second tag is a canonical numeric string, as a
JavaScript object key would hoist it. -/
def numericTagPost : Post :=
  { id := "numeric-tag",
    data := { title := "Numeric tag", description := "", pubDate := 0,
              updatedDate := none, isDraft := false, heroImage := none,
              category := "tech", tags := some ["zebra", "1"] } }

/-- A published post dated 2 with tag `js`. -/
def jsPost : Post :=
  { id := "js-post",
    data := { title := "Js", description := "", pubDate := 2,
              updatedDate := none, isDraft := false, heroImage := none,
              category := "tech", tags := some ["js"] } }

/-- A published post dated 1 with tags `js` and `css`. -/
def cssPost : Post :=
  { id := "css-post",
    data := { title := "Css", description := "", pubDate := 1,
              updatedDate := none, isDraft := false, heroImage := none,
              category := "design", tags := some ["js", "css"] } }

/-- A published post that lists the same tag twice. -/
def dupTagPost : Post :=
  { id := "dup-tag",
    data := { title := "Dup", description := "", pubDate := 3,
              updatedDate := none, isDraft := false, heroImage := none,
              category := "tech", tags := some ["x", "x"] } }

/-- A raw record whose `title` is the empty string and whose other fields
are well-formed. -/
def rawEmptyTitle : RawPost :=
  { title := some (RawValue.str ""),
    description := some (RawValue.str "d"),
    pubDate := some (RawValue.date 10), updatedDate := none,
    isDraft := some (RawValue.bool false), heroImage := none,
    category := some (RawValue.str "tech"),
    tags := some (RawValue.list [RawValue.str "js"]) }

/-- The entity `rawEmptyTitle` validates to. -/
def emptyTitleData : PostData :=
  { title := "", description := "d", pubDate := 10, updatedDate := none,
    isDraft := false, heroImage := none, category := "tech",
    tags := some ["js"] }

/-- A raw record with `isDraft` and `tags` both absent and all required
fields well-formed. -/
def rawNoDraftNoTags : RawPost :=
  { title := some (RawValue.str "Hello"),
    description := some (RawValue.str "d"),
    pubDate := some (RawValue.date 5), updatedDate := none,
    isDraft := none, heroImage := none,
    category := some (RawValue.str "tech"), tags := none }

/-- The entity `rawNoDraftNoTags` validates to. -/
def noDraftData : PostData :=
  { title := "Hello", description := "d", pubDate := 5, updatedDate := none,
    isDraft := false, heroImage := none, category := "tech", tags := none }

/-! ### Lemmas about the published-posts view -/

lemma filter_orderedInsert_pubDate (d : Int) (a : Post) (l : List Post) :
    (l.orderedInsert byPubDateDesc a).filter (fun p => p.data.pubDate == d)
      = if a.data.pubDate == d
          then a :: l.filter (fun p => p.data.pubDate == d)
          else l.filter (fun p => p.data.pubDate == d) := by
  induction l with
  | nil =>
    by_cases h : a.data.pubDate == d <;>
      simp [List.orderedInsert, List.filter, h]
  | cons b l ih =>
    simp only [List.orderedInsert]
    by_cases hab : byPubDateDesc a b
    · rw [if_pos hab]
      by_cases ha : a.data.pubDate == d <;>
        by_cases hb : b.data.pubDate == d <;>
          simp [List.filter_cons, ha, hb]
    · rw [if_neg hab]
      have hlt : a.data.pubDate < b.data.pubDate := lt_of_not_le hab
      by_cases hb : b.data.pubDate == d
      · have ha : ¬(a.data.pubDate == d) := by
          rw [beq_iff_eq] at hb ⊢
          omega
        simp [List.filter_cons, ha, hb, ih]
      · by_cases ha : a.data.pubDate == d <;>
          simp [List.filter_cons, ha, hb, ih]

lemma filter_insertionSort_pubDate (d : Int) (l : List Post) :
    (l.insertionSort byPubDateDesc).filter (fun p => p.data.pubDate == d)
      = l.filter (fun p => p.data.pubDate == d) := by
  induction l with
  | nil => rfl
  | cons a l ih =>
    simp only [List.insertionSort]
    rw [filter_orderedInsert_pubDate, ih, List.filter_cons]

/-! ### Claims C1 - C3 -/

/-- C1: `getPublishedBlogs` contains no draft post, and contains exactly the
posts of the store whose `isDraft` field is false. -/
theorem getPublishedBlogs_mem_iff (blogs : List Post) (p : Post) :
    p ∈ getPublishedBlogs blogs ↔ p ∈ blogs ∧ p.data.isDraft = false := by
  unfold getPublishedBlogs
  rw [List.mem_insertionSort, List.mem_filter]
  simp

/-- C2: in `getPublishedBlogs`'s output, every adjacent pair is ordered by
publish date, newest first: the earlier post's date is ≥ the later one's. -/
theorem getPublishedBlogs_chain_desc (blogs : List Post) :
    List.Chain' (fun a b => b.data.pubDate ≤ a.data.pubDate)
      (getPublishedBlogs blogs) :=
  (List.sorted_insertionSort byPubDateDesc _).chain'

/-- C3: the sort is stable: for any date `d`, the posts of the output with
publish date `d` are exactly the non-draft posts of the store with date `d`,
in the store's iteration order; so posts with identical dates keep their
relative store order. -/
theorem getPublishedBlogs_stable (blogs : List Post) (d : Int) :
    (getPublishedBlogs blogs).filter (fun p => p.data.pubDate == d)
      = (blogs.filter (fun b => !b.data.isDraft)).filter
          (fun p => p.data.pubDate == d) :=
  filter_insertionSort_pubDate d _

/-! ### Lemmas for the category grouping -/

lemma sum_map_add {α : Type} (l : List α) (f g : α → Nat) :
    (l.map (fun x => f x + g x)).sum = (l.map f).sum + (l.map g).sum := by
  induction l with
  | nil => rfl
  | cons a l ih =>
    simp only [List.map_cons, List.sum_cons, ih]
    omega

lemma length_filter_eq_sum {α : Type} (l : List α) (p : α → Bool) :
    (l.filter p).length = (l.map (fun x => if p x then 1 else 0)).sum := by
  induction l with
  | nil => rfl
  | cons a l ih =>
    by_cases h : p a <;> simp [List.filter_cons, h, ih] <;> omega

lemma sum_filter_lengths (cats : List Category) (l : List Post) :
    (cats.map (fun c =>
        (l.filter (fun b => b.data.category == c.id)).length)).sum
      = (l.map (fun b =>
          (cats.filter (fun c => b.data.category == c.id)).length)).sum := by
  induction cats with
  | nil => simp
  | cons c cats ih =>
    simp only [List.map_cons, List.sum_cons, ih]
    rw [length_filter_eq_sum, ← sum_map_add]
    refine congrArg List.sum (List.map_congr_left fun b _ => ?_)
    by_cases h : b.data.category == c.id <;>
      simp [List.filter_cons, h] <;> omega

lemma matching_categories_le_one (cats : List Category) (x : String)
    (h : (cats.map Category.id).Nodup) :
    (cats.filter (fun c => x == c.id)).length ≤ 1 := by
  induction cats with
  | nil => simp
  | cons c cats ih =>
    simp only [List.map_cons, List.nodup_cons] at h
    obtain ⟨hc, hnd⟩ := h
    by_cases hx : x == c.id
    · have hrest : cats.filter (fun cc => x == cc.id) = [] := by
        rw [List.filter_eq_nil_iff]
        intro cc hcc hmatch
        rw [beq_iff_eq] at hx hmatch
        have : c.id = cc.id := by rw [← hx, ← hmatch]
        exact hc (this ▸ List.mem_map_of_mem Category.id hcc)
      simp [List.filter_cons, hx, hrest]
    · simp only [List.filter_cons, hx, if_false, Bool.false_eq_true, ite_false]
      exact ih hnd

lemma matching_categories_pos_iff (cats : List Category) (x : String) :
    0 < (cats.filter (fun c => x == c.id)).length
      ↔ ∃ c ∈ cats, x = c.id := by
  rw [← List.countP_eq_length_filter, List.countP_pos_iff]
  simp

lemma sum_map_le_length {l : List Post} {d : Post → Nat}
    (h : ∀ b ∈ l, d b ≤ 1) :
    (l.map d).sum ≤ l.length
      ∧ ((l.map d).sum = l.length ↔ ∀ b ∈ l, d b = 1) := by
  induction l with
  | nil => simp
  | cons a l ih =>
    have ha : d a ≤ 1 := h a (List.mem_cons_self a l)
    obtain ⟨ih1, ih2⟩ := ih (fun b hb => h b (List.mem_cons_of_mem a hb))
    simp only [List.map_cons, List.sum_cons, List.length_cons, List.mem_cons]
    constructor
    · omega
    · constructor
      · intro heq
        have hda : d a = 1 := by omega
        have hsum : (l.map d).sum = l.length := by omega
        rintro b (rfl | hb)
        · exact hda
        · exact (ih2.mp hsum) b hb
      · intro hall
        have hda : d a = 1 := hall a (Or.inl rfl)
        have hsum : (l.map d).sum = l.length :=
          ih2.mpr (fun b hb => hall b (Or.inr hb))
        omega

/-! ### Claims C5 and C6 -/

/-- C5: `getCategoriesWithBlogs` yields exactly one `{category, blogs}` pair
per category entry, in the category collection's iteration order; each pair
holds the (possibly empty) newest-first published posts of that category. -/
theorem getCategoriesWithBlogs_one_per_category
    (blogs : List Post) (cats : List Category) :
    (getCategoriesWithBlogs blogs cats).map CategoryWithBlogs.category = cats
    ∧ ∀ cw ∈ getCategoriesWithBlogs blogs cats,
        cw.blogs = (getPublishedBlogs blogs).filter
          (fun b => b.data.category == cw.category.id) := by
  constructor
  · simp [getCategoriesWithBlogs, List.map_map, Function.comp_def]
  · intro cw hcw
    simp only [getCategoriesWithBlogs, List.mem_map] at hcw
    obtain ⟨c, _, rfl⟩ := hcw
    rfl

/-- C6: the post counts of the category groups sum to at most the number of
published posts, with equality exactly when every published post's category
reference is the id of some known category. -/
theorem getCategoriesWithBlogs_count_bound
    (blogs : List Post) (cats : List Category)
    (h : (cats.map Category.id).Nodup) :
    ((getCategoriesWithBlogs blogs cats).map (fun cw => cw.blogs.length)).sum
        ≤ (getPublishedBlogs blogs).length
    ∧ (((getCategoriesWithBlogs blogs cats).map
            (fun cw => cw.blogs.length)).sum = (getPublishedBlogs blogs).length
        ↔ ∀ b ∈ getPublishedBlogs blogs, ∃ c ∈ cats, b.data.category = c.id) := by
  have key : (getCategoriesWithBlogs blogs cats).map (fun cw => cw.blogs.length)
      = cats.map (fun c => ((getPublishedBlogs blogs).filter
          (fun b => b.data.category == c.id)).length) := by
    simp [getCategoriesWithBlogs]
  rw [key, sum_filter_lengths]
  have hle : ∀ b ∈ getPublishedBlogs blogs,
      (cats.filter (fun c => b.data.category == c.id)).length ≤ 1 :=
    fun b _ => matching_categories_le_one cats _ h
  obtain ⟨h1, h2⟩ := sum_map_le_length hle
  refine ⟨h1, h2.trans ?_⟩
  constructor
  · intro hall b hb
    have := hall b hb
    exact (matching_categories_pos_iff cats _).mp (by omega)
  · intro hall b hb
    have hpos := (matching_categories_pos_iff cats _).mpr (hall b hb)
    have := hle b hb
    omega

/-! ### Lemmas about the tag map -/

lemma mem_firstOccurrences :
    ∀ (l : List String) (s : String), s ∈ firstOccurrences l → s ∈ l := by
  intro l
  induction l using firstOccurrences.induct with
  | case1 =>
    intro s h
    simp [firstOccurrences] at h
  | case2 t rest ih =>
    intro s h
    rw [firstOccurrences] at h
    rcases List.mem_cons.mp h with rfl | h
    · exact List.mem_cons_self _ _
    · exact List.mem_cons_of_mem _ (List.mem_of_mem_filter (ih _ h))

lemma bucketOf_cons (t0 : String) (b : Post) (evs : List (String × Post))
    (t : String) :
    bucketOf ((t0, b) :: evs) t
      = if t0 = t then b :: bucketOf evs t else bucketOf evs t := by
  by_cases h : t0 = t <;> simp [bucketOf, List.filter_cons, h]

lemma addToTagMap_fst (m : List (String × List Post)) (t : String) (b : Post) :
    (addToTagMap m t b).map Prod.fst
      = if t ∈ m.map Prod.fst then m.map Prod.fst
        else m.map Prod.fst ++ [t] := by
  induction m with
  | nil => simp [addToTagMap]
  | cons kv m ih =>
    obtain ⟨k, v⟩ := kv
    by_cases hk : k = t
    · simp [addToTagMap, hk]
    · simp only [addToTagMap, if_neg hk, List.map_cons, ih]
      by_cases hm : t ∈ m.map Prod.fst <;>
        simp [hm, Ne.symm hk, List.mem_cons]

lemma addToTagMap_of_not_mem {m : List (String × List Post)} {t : String}
    (b : Post) (h : t ∉ m.map Prod.fst) :
    addToTagMap m t b = m ++ [(t, [b])] := by
  induction m with
  | nil => rfl
  | cons kv m ih =>
    obtain ⟨k, v⟩ := kv
    simp only [List.map_cons, List.mem_cons, not_or] at h
    obtain ⟨hk, hm⟩ := h
    simp only [addToTagMap, if_neg (Ne.symm hk), ih hm, List.cons_append]

lemma addToTagMap_of_mem {m : List (String × List Post)} {t : String}
    (b : Post) (h : t ∈ m.map Prod.fst)
    (hnd : (m.map Prod.fst).Nodup) :
    addToTagMap m t b
      = m.map (fun kv => if kv.1 = t then (kv.1, kv.2 ++ [b]) else kv) := by
  induction m with
  | nil => simp at h
  | cons kv m ih =>
    obtain ⟨k, v⟩ := kv
    simp only [List.map_cons, List.nodup_cons] at hnd
    obtain ⟨hknotin, hndm⟩ := hnd
    by_cases hk : k = t
    · subst hk
      have hstep : addToTagMap ((k, v) :: m) k b = (k, v ++ [b]) :: m := by
        simp [addToTagMap]
      have hne : ∀ kv2 ∈ m,
          (if kv2.1 = k then (kv2.1, kv2.2 ++ [b]) else kv2) = kv2 := by
        intro kv2 hkv2
        have : kv2.1 ≠ k := fun heq =>
          hknotin (heq ▸ List.mem_map_of_mem Prod.fst hkv2)
        simp [this]
      have hmap : m.map (fun kv => if kv.1 = k then (kv.1, kv.2 ++ [b]) else kv)
          = m := by
        rw [List.map_congr_left hne]
        simp
      rw [hstep, List.map_cons, hmap]
      simp
    · have hm : t ∈ m.map Prod.fst := by
        rcases List.mem_cons.mp h with heq | hm
        · exact absurd heq.symm hk
        · exact hm
      simp only [addToTagMap, if_neg hk, List.map_cons]
      rw [ih hm hndm]

lemma tagFold_append (evs1 evs2 : List (String × Post)) :
    ∀ m, tagFold m (evs1 ++ evs2) = tagFold (tagFold m evs1) evs2 := by
  induction evs1 with
  | nil => intro m; rfl
  | cons e evs1 ih =>
    intro m
    obtain ⟨t, b⟩ := e
    rw [List.cons_append, tagFold, tagFold, ih]

lemma foldl_tags_eq_tagFold (b : Post) (tags : List String) :
    ∀ m, tags.foldl (fun m2 tag => addToTagMap m2 tag b) m
      = tagFold m (tags.map (fun tag => (tag, b))) := by
  induction tags with
  | nil => intro m; rfl
  | cons t tags ih =>
    intro m
    rw [List.foldl_cons, List.map_cons, tagFold, ih]

lemma buildTagMap_eq_tagFold (blogs : List Post) :
    buildTagMap blogs = tagFold [] (tagEvents blogs) := by
  have key : ∀ (bs : List Post) (m : List (String × List Post)),
      bs.foldl (fun m2 blog => (blog.data.tags.getD []).foldl
        (fun m3 tag => addToTagMap m3 tag blog) m2) m
        = tagFold m (tagEvents bs) := by
    intro bs
    induction bs with
    | nil => intro m; rfl
    | cons b bs ih =>
      intro m
      rw [List.foldl_cons, ih]
      have : tagEvents (b :: bs)
          = (b.data.tags.getD []).map (fun tag => (tag, b)) ++ tagEvents bs := by
        simp [tagEvents]
      rw [this, tagFold_append, foldl_tags_eq_tagFold]
  exact key blogs []

lemma jsObjectEntries_perm (m : List (String × List Post)) :
    (jsObjectEntries m).Perm m := by
  unfold jsObjectEntries
  exact ((List.perm_insertionSort byNumericKey _).append_right _).trans
    (List.filter_append_perm _ m)

lemma jsObjectEntries_of_no_index {m : List (String × List Post)}
    (h : ∀ kv ∈ m, isArrayIndexKey kv.1 = false) :
    jsObjectEntries m = m := by
  unfold jsObjectEntries
  have h1 : m.filter (fun kv => isArrayIndexKey kv.1) = [] := by
    rw [List.filter_eq_nil_iff]
    intro kv hkv
    simp [h kv hkv]
  have h2 : m.filter (fun kv => !isArrayIndexKey kv.1) = m := by
    rw [List.filter_eq_self]
    intro kv hkv
    simp [h kv hkv]
  rw [h1, h2]
  rfl

lemma tagFold_eq (evs : List (String × Post)) :
    ∀ m : List (String × List Post), (m.map Prod.fst).Nodup →
    tagFold m evs
      = m.map (fun kv => (kv.1, kv.2 ++ bucketOf evs kv.1))
        ++ (firstOccurrences ((evs.map Prod.fst).filter
              (fun t => decide (t ∉ m.map Prod.fst)))).map
            (fun t => (t, bucketOf evs t)) := by
  induction evs with
  | nil =>
    intro m _
    simp [tagFold, bucketOf, firstOccurrences]
  | cons e evs ih =>
    obtain ⟨t0, b⟩ := e
    intro m hnd
    rw [tagFold]
    by_cases hmem : t0 ∈ m.map Prod.fst
    · rw [addToTagMap_of_mem b hmem hnd]
      have hkeys :
          (m.map (fun kv => if kv.1 = t0 then (kv.1, kv.2 ++ [b]) else kv)).map
              Prod.fst = m.map Prod.fst := by
        rw [List.map_map]
        refine List.map_congr_left fun kv _ => ?_
        by_cases hkv : kv.1 = t0 <;> simp [hkv]
      rw [ih _ (by rw [hkeys]; exact hnd)]
      congr 1
      · rw [List.map_map]
        refine List.map_congr_left fun kv hkv => ?_
        by_cases hkv1 : kv.1 = t0
        · simp [Function.comp, hkv1, bucketOf_cons]
        · simp [Function.comp, hkv1, bucketOf_cons, Ne.symm hkv1]
      · rw [hkeys]
        have hfil : ((((t0, b) :: evs).map Prod.fst).filter
              (fun t => decide (t ∉ m.map Prod.fst)))
            = (evs.map Prod.fst).filter
                (fun t => decide (t ∉ m.map Prod.fst)) := by
          rw [List.map_cons, List.filter_cons]
          simp [hmem]
        rw [hfil]
        refine List.map_congr_left fun t ht => ?_
        have ht2 : t ∈ (evs.map Prod.fst).filter
            (fun t => decide (t ∉ m.map Prod.fst)) :=
          mem_firstOccurrences _ _ ht
        have hnotin : t ∉ m.map Prod.fst := by
          have := List.of_mem_filter ht2
          simpa using this
        have hne : t0 ≠ t := fun heq => hnotin (heq ▸ hmem)
        rw [bucketOf_cons, if_neg hne]
    · rw [addToTagMap_of_not_mem b hmem]
      have hnd2 : ((m ++ [(t0, [b])]).map Prod.fst).Nodup := by
        rw [List.map_append]
        refine List.Nodup.append hnd (List.nodup_singleton _) ?_
        intro x hx hx2
        simp only [List.map_cons, List.map_nil, List.mem_singleton] at hx2
        subst hx2
        exact hmem hx
      rw [ih _ hnd2]
      have hmap1 : (m ++ [(t0, [b])]).map
            (fun kv => (kv.1, kv.2 ++ bucketOf evs kv.1))
          = m.map (fun kv => (kv.1, kv.2 ++ bucketOf evs kv.1))
            ++ [(t0, [b] ++ bucketOf evs t0)] := by
        rw [List.map_append]
        rfl
      have hm1 : m.map (fun kv => (kv.1, kv.2 ++ bucketOf evs kv.1))
          = m.map (fun kv => (kv.1, kv.2 ++ bucketOf ((t0, b) :: evs) kv.1)) := by
        refine List.map_congr_left fun kv hkv => ?_
        have : t0 ≠ kv.1 := fun heq =>
          hmem (heq ▸ List.mem_map_of_mem Prod.fst hkv)
        rw [bucketOf_cons, if_neg this]
      have hkeys2 : (m ++ [(t0, [b])]).map Prod.fst
          = m.map Prod.fst ++ [t0] := by
        rw [List.map_append]
        rfl
      have hfil2 : ((((t0, b) :: evs).map Prod.fst).filter
            (fun t => decide (t ∉ m.map Prod.fst)))
          = t0 :: (evs.map Prod.fst).filter
              (fun t => decide (t ∉ m.map Prod.fst)) := by
        rw [List.map_cons, List.filter_cons]
        simp [hmem]
      have hff : ((evs.map Prod.fst).filter
              (fun t => decide (t ∉ m.map Prod.fst))).filter
            (fun s => s ≠ t0)
          = (evs.map Prod.fst).filter
              (fun t => decide (t ∉ m.map Prod.fst ++ [t0])) := by
        rw [List.filter_filter]
        refine List.filter_congr fun a _ => ?_
        by_cases h1 : a ∈ m.map Prod.fst <;> by_cases h2 : a = t0 <;>
          simp [h1, h2, List.mem_append]
      have hbucket0 : bucketOf ((t0, b) :: evs) t0 = [b] ++ bucketOf evs t0 := by
        rw [bucketOf_cons, if_pos rfl]
        rfl
      rw [hmap1, hm1, hkeys2, hfil2, firstOccurrences, hff]
      rw [List.map_cons, ← hbucket0]
      have htail : (firstOccurrences ((evs.map Prod.fst).filter
              (fun t => decide (t ∉ m.map Prod.fst ++ [t0])))).map
            (fun t => (t, bucketOf evs t))
          = (firstOccurrences ((evs.map Prod.fst).filter
              (fun t => decide (t ∉ m.map Prod.fst ++ [t0])))).map
            (fun t => (t, bucketOf ((t0, b) :: evs) t)) := by
        refine List.map_congr_left fun t ht => ?_
        have ht2 := mem_firstOccurrences _ _ ht
        have hdec := List.of_mem_filter ht2
        have hne : t0 ≠ t := by
          intro heq
          subst heq
          simp [List.mem_append] at hdec
        rw [bucketOf_cons, if_neg hne]
      rw [htail, List.append_assoc]
      rfl

lemma tagFold_nil (evs : List (String × Post)) :
    tagFold [] evs
      = (firstOccurrences (evs.map Prod.fst)).map
          (fun t => (t, bucketOf evs t)) := by
  have h := tagFold_eq evs [] (by simp)
  simpa using h

lemma tagEvents_map_fst (blogs : List Post) :
    (tagEvents blogs).map Prod.fst
      = blogs.flatMap (fun b => b.data.tags.getD []) := by
  simp [tagEvents, List.map_flatMap, List.map_map, Function.comp_def]

lemma bucketOf_append (e1 e2 : List (String × Post)) (t : String) :
    bucketOf (e1 ++ e2) t = bucketOf e1 t ++ bucketOf e2 t := by
  simp [bucketOf, List.filter_append]

lemma bucketOf_tag_pairs (b : Post) (tags : List String) (t : String) :
    bucketOf (tags.map (fun tg => (tg, b))) t
      = List.replicate (tags.count t) b := by
  induction tags with
  | nil => rfl
  | cons tg tags ih =>
    rw [List.map_cons]
    by_cases h : tg = t
    · rw [bucketOf_cons, if_pos h, ih, List.count_cons]
      simp [h, List.replicate_succ]
    · rw [bucketOf_cons, if_neg h, ih, List.count_cons]
      simp [h]

lemma bucketOf_tagEvents (l : List Post) (t : String) :
    bucketOf (tagEvents l) t
      = l.flatMap (fun b =>
          List.replicate ((b.data.tags.getD []).count t) b) := by
  induction l with
  | nil => rfl
  | cons b l ih =>
    have hsplit : tagEvents (b :: l)
        = (b.data.tags.getD []).map (fun tg => (tg, b)) ++ tagEvents l := by
      simp [tagEvents]
    rw [hsplit, bucketOf_append, bucketOf_tag_pairs, ih, List.flatMap_cons]

lemma count_flatMap_replicate (l : List Post) (p : Post) (f : Post → Nat) :
    (l.flatMap (fun b => List.replicate (f b) b)).count p
      = (l.map (fun b => if b = p then f b else 0)).sum := by
  induction l with
  | nil => rfl
  | cons b l ih =>
    rw [List.flatMap_cons, List.count_append, ih, List.count_replicate,
      List.map_cons, List.sum_cons]
    by_cases h : b = p <;> simp [h]

lemma sum_single_of_count_one (l : List Post) (p : Post) (f : Post → Nat)
    (h : l.count p = 1) :
    (l.map (fun b => if b = p then f b else 0)).sum = f p := by
  induction l with
  | nil => simp at h
  | cons b l ih =>
    rw [List.count_cons] at h
    by_cases hb : b = p
    · subst hb
      simp only [beq_self_eq_true, if_true, ite_true] at h
      have hc : l.count b = 0 := by omega
      have hzero : ∀ x ∈ l.map (fun b2 => if b2 = b then f b2 else 0), x = 0 := by
        intro x hx
        obtain ⟨b2, hb2, rfl⟩ := List.mem_map.mp hx
        have hne : b2 ≠ b := by
          intro heq
          subst heq
          have : 0 < l.count b2 := List.count_pos_iff.mpr hb2
          omega
        simp [hne]
      rw [List.map_cons, List.sum_cons, if_pos rfl, List.sum_eq_zero hzero]
      omega
    · have hbeq : (b == p) = false := by simp [hb]
      rw [hbeq] at h
      simp only [Bool.false_eq_true, if_false, Nat.add_zero] at h
      rw [List.map_cons, List.sum_cons, if_neg hb, ih h]
      omega

/-! ### Claims C4, C9, C10 -/

/-- C4 counterexample: a published post tagged `["zebra", "1"]` yields
buckets ordered `["1", "zebra"]` — the JavaScript object hoists the
array-index-like key `"1"` — while first-appearance order is
`["zebra", "1"]`. -/
theorem getTagsWithBlogs_order_counterexample :
    (getTagsWithBlogs [numericTagPost]).map TagWithBlogs.tag
        ≠ firstOccurrences ((getPublishedBlogs [numericTagPost]).flatMap
            (fun b => b.data.tags.getD []))
    ∧ (getTagsWithBlogs [numericTagPost]).map TagWithBlogs.tag = ["1", "zebra"]
    ∧ firstOccurrences ((getPublishedBlogs [numericTagPost]).flatMap
        (fun b => b.data.tags.getD [])) = ["zebra", "1"] := by
  have h1 : (getTagsWithBlogs [numericTagPost]).map TagWithBlogs.tag
      = ["1", "zebra"] := by decide
  have hX : (getPublishedBlogs [numericTagPost]).flatMap
      (fun b => b.data.tags.getD []) = ["zebra", "1"] := by decide
  have h2 : firstOccurrences ((getPublishedBlogs [numericTagPost]).flatMap
      (fun b => b.data.tags.getD [])) = ["zebra", "1"] := by
    rw [hX]
    simp [firstOccurrences]
  refine ⟨?_, h1, h2⟩
  rw [h1, h2]
  decide

/-- C4 (amended): provided no tag of a published post is an array-index
string (a canonical decimal numeral below 2^32 - 1, which `Object.entries`
hoists), the buckets of `getTagsWithBlogs` are ordered by first appearance
of each tag across the newest-first published list, and each bucket lists
that tag's posts in the newest-first published order (with multiplicity). -/
theorem getTagsWithBlogs_order (blogs : List Post)
    (h : ∀ b ∈ getPublishedBlogs blogs, ∀ t ∈ b.data.tags.getD [],
      isArrayIndexKey t = false) :
    (getTagsWithBlogs blogs).map TagWithBlogs.tag
        = firstOccurrences ((getPublishedBlogs blogs).flatMap
            (fun b => b.data.tags.getD []))
    ∧ ∀ e ∈ getTagsWithBlogs blogs,
        e.blogs = (getPublishedBlogs blogs).flatMap
          (fun b => List.replicate ((b.data.tags.getD []).count e.tag) b) := by
  have hmap : buildTagMap (getPublishedBlogs blogs)
      = (firstOccurrences ((getPublishedBlogs blogs).flatMap
          (fun b => b.data.tags.getD []))).map
          (fun t => (t, bucketOf (tagEvents (getPublishedBlogs blogs)) t)) := by
    rw [buildTagMap_eq_tagFold, tagFold_nil, tagEvents_map_fst]
  have hnoidx : ∀ kv ∈ buildTagMap (getPublishedBlogs blogs),
      isArrayIndexKey kv.1 = false := by
    intro kv hkv
    rw [hmap] at hkv
    obtain ⟨t, ht, rfl⟩ := List.mem_map.mp hkv
    have ht2 := mem_firstOccurrences _ _ ht
    obtain ⟨b, hb, htag⟩ := List.mem_flatMap.mp ht2
    exact h b hb _ htag
  have hjs : jsObjectEntries (buildTagMap (getPublishedBlogs blogs))
      = buildTagMap (getPublishedBlogs blogs) :=
    jsObjectEntries_of_no_index hnoidx
  constructor
  · unfold getTagsWithBlogs
    rw [hjs, hmap, List.map_map, List.map_map]
    exact (List.map_congr_left fun t _ => rfl).trans (List.map_id _)
  · intro e he
    unfold getTagsWithBlogs at he
    rw [hjs, hmap, List.map_map] at he
    obtain ⟨t, _, rfl⟩ := List.mem_map.mp he
    simpa using bucketOf_tagEvents (getPublishedBlogs blogs) t

/-- C4 witness: with ordinary (non-numeric) tags, the amended theorem
applies to a concrete two-post store. -/
theorem getTagsWithBlogs_order_witness :
    (∀ b ∈ getPublishedBlogs [jsPost, cssPost],
      ∀ t ∈ b.data.tags.getD [], isArrayIndexKey t = false)
    ∧ ((getTagsWithBlogs [jsPost, cssPost]).map TagWithBlogs.tag
          = firstOccurrences ((getPublishedBlogs [jsPost, cssPost]).flatMap
              (fun b => b.data.tags.getD []))
        ∧ ∀ e ∈ getTagsWithBlogs [jsPost, cssPost],
            e.blogs = (getPublishedBlogs [jsPost, cssPost]).flatMap
              (fun b => List.replicate ((b.data.tags.getD []).count e.tag) b)) :=
  ⟨by decide, getTagsWithBlogs_order [jsPost, cssPost] (by decide)⟩

/-- C9: a post occurring once in the published view occurs in a tag's
bucket exactly as many times as the tag occurs in its `tags` sequence;
duplicate tags are not deduplicated. -/
theorem getTagsWithBlogs_count (blogs : List Post) (e : TagWithBlogs)
    (p : Post) (he : e ∈ getTagsWithBlogs blogs)
    (hp : (getPublishedBlogs blogs).count p = 1) :
    e.blogs.count p = (p.data.tags.getD []).count e.tag := by
  obtain ⟨kv, hkv, rfl⟩ := List.mem_map.mp he
  have hkv2 : kv ∈ buildTagMap (getPublishedBlogs blogs) :=
    (jsObjectEntries_perm _).mem_iff.mp hkv
  rw [buildTagMap_eq_tagFold, tagFold_nil] at hkv2
  obtain ⟨t, _, rfl⟩ := List.mem_map.mp hkv2
  show (bucketOf (tagEvents (getPublishedBlogs blogs)) t).count p = _
  rw [bucketOf_tagEvents, count_flatMap_replicate,
    sum_single_of_count_one _ _ _ hp]

/-- C9 witness: a post tagged `["x", "x"]` appears twice in the `x`
bucket. -/
theorem getTagsWithBlogs_count_witness :
    (TagWithBlogs.mk "x" [dupTagPost, dupTagPost] ∈ getTagsWithBlogs [dupTagPost])
    ∧ (getPublishedBlogs [dupTagPost]).count dupTagPost = 1
    ∧ (TagWithBlogs.mk "x" [dupTagPost, dupTagPost]).blogs.count dupTagPost
        = (dupTagPost.data.tags.getD []).count
            (TagWithBlogs.mk "x" [dupTagPost, dupTagPost]).tag :=
  ⟨by decide, by decide,
    getTagsWithBlogs_count [dupTagPost] _ dupTagPost (by decide) (by decide)⟩

/-- C10: every returned tag bucket is non-empty: a bucket is created only
when some published post carries the tag. -/
theorem getTagsWithBlogs_buckets_nonempty (blogs : List Post)
    (e : TagWithBlogs) (he : e ∈ getTagsWithBlogs blogs) :
    e.blogs ≠ [] := by
  obtain ⟨kv, hkv, rfl⟩ := List.mem_map.mp he
  have hkv2 : kv ∈ buildTagMap (getPublishedBlogs blogs) :=
    (jsObjectEntries_perm _).mem_iff.mp hkv
  rw [buildTagMap_eq_tagFold, tagFold_nil] at hkv2
  obtain ⟨t, ht, rfl⟩ := List.mem_map.mp hkv2
  have ht2 := mem_firstOccurrences _ _ ht
  obtain ⟨ev, hev, hfst⟩ := List.mem_map.mp ht2
  show bucketOf (tagEvents (getPublishedBlogs blogs)) t ≠ []
  intro hemp
  have hmem : ev ∈ (tagEvents (getPublishedBlogs blogs)).filter
      (fun x => x.1 == t) :=
    List.mem_filter.mpr ⟨hev, by simp [hfst]⟩
  rw [bucketOf, List.map_eq_nil_iff] at hemp
  rw [hemp] at hmem
  exact List.not_mem_nil ev hmem

/-- C10 witness: the single bucket of a one-post store is non-empty. -/
theorem getTagsWithBlogs_buckets_nonempty_witness :
    (TagWithBlogs.mk "x" [dupTagPost, dupTagPost] ∈ getTagsWithBlogs [dupTagPost])
    ∧ (TagWithBlogs.mk "x" [dupTagPost, dupTagPost]).blogs ≠ [] :=
  ⟨by decide,
    getTagsWithBlogs_buckets_nonempty [dupTagPost] _ (by decide)⟩

/-! ### Claims C7 and C8 -/

lemma parseStr_eq_some {o : Option RawValue} {s : String}
    (h : parseStr o = some s) : o = some (RawValue.str s) := by
  match o with
  | none => simp [parseStr] at h
  | some (RawValue.str s2) =>
    simp [parseStr] at h
    rw [h]
  | some (RawValue.bool b) => simp [parseStr] at h
  | some (RawValue.date d) => simp [parseStr] at h
  | some (RawValue.list xs) => simp [parseStr] at h

/-- C7 counterexample: the schema uses plain `z.string()` for `title`, so a
record whose title is the empty string validates successfully — it does not
fail validation. -/
theorem emptyTitle_passes_validation :
    rawEmptyTitle.title = some (RawValue.str "")
    ∧ parseBlog rawEmptyTitle = some emptyTitleData := by
  exact ⟨rfl, by decide⟩

/-- C7 (amended): validation requires `title` to be present and textual,
but not non-empty: whenever a record validates, its raw `title` field held
exactly the (possibly empty) string carried into the entity, and a record
with an absent or non-string title fails. -/
theorem parseBlog_title (r : RawPost) (e : PostData)
    (h : parseBlog r = some e) :
    r.title = some (RawValue.str e.title) := by
  simp only [parseBlog, Option.bind_eq_some, Option.map_eq_some'] at h
  obtain ⟨t, ht, de, hde, pd, hpd, ud, hud, dr, hdr, hi, hhi, c, hc, tg, htg, heq⟩ := h
  rw [parseStr_eq_some ht, ← heq]

/-- C7 witness: the amended theorem applied to the empty-title record. -/
theorem parseBlog_title_witness :
    parseBlog rawEmptyTitle = some emptyTitleData
    ∧ rawEmptyTitle.title = some (RawValue.str emptyTitleData.title) :=
  ⟨by decide, parseBlog_title rawEmptyTitle emptyTitleData (by decide)⟩

/-- C8 counterexample: a record with absent `isDraft` and absent `tags`
validates to an entity whose `isDraft` is `false` but whose `tags` is still
absent (`none`), not the empty sequence: `.optional()` has no default, so
the claimed normalization of `tags` does not happen in the validated
entity. -/
theorem absent_tags_not_normalized :
    rawNoDraftNoTags.isDraft = none
    ∧ rawNoDraftNoTags.tags = none
    ∧ (parseBlog rawNoDraftNoTags).map PostData.isDraft = some false
    ∧ (parseBlog rawNoDraftNoTags).map PostData.tags ≠ some (some []) := by
  exact ⟨rfl, rfl, by decide, by decide⟩

/-- C8 (amended): in a validated entity, an absent `isDraft` is normalized
to `false`, while an absent `tags` stays absent (`none`); the empty-sequence
reading of absent tags happens only at the consumption site
(`blog.data.tags ?? []` in `getTagsWithBlogs`). -/
theorem parseBlog_defaults (r : RawPost) (e : PostData)
    (h : parseBlog r = some e) :
    (r.isDraft = none → e.isDraft = false)
    ∧ (r.tags = none → e.tags = none) := by
  simp only [parseBlog, Option.bind_eq_some, Option.map_eq_some'] at h
  obtain ⟨t, ht, de, hde, pd, hpd, ud, hud, dr, hdr, hi, hhi, c, hc, tg, htg, heq⟩ := h
  constructor
  · intro hnone
    rw [hnone] at hdr
    simp only [parseBoolDefaultFalse, Option.some.injEq] at hdr
    rw [← heq, ← hdr]
  · intro hnone
    rw [hnone] at htg
    simp only [parseOptTags, Option.some.injEq] at htg
    rw [← heq, ← htg]

/-- C8 witness: the amended theorem applied to the record with absent
`isDraft` and `tags`. -/
theorem parseBlog_defaults_witness :
    parseBlog rawNoDraftNoTags = some noDraftData
    ∧ rawNoDraftNoTags.isDraft = none
    ∧ rawNoDraftNoTags.tags = none
    ∧ noDraftData.isDraft = false
    ∧ noDraftData.tags = none :=
  ⟨by decide, rfl, rfl,
    (parseBlog_defaults rawNoDraftNoTags noDraftData (by decide)).1 rfl,
    (parseBlog_defaults rawNoDraftNoTags noDraftData (by decide)).2 rfl⟩

/-- C5 witness: on a concrete store, the category pairs line up with the
category list and the `tech` pair holds exactly the tech posts. -/
theorem getCategoriesWithBlogs_one_per_category_witness :
    (getCategoriesWithBlogs [jsPost] blogCategories).map
        CategoryWithBlogs.category = blogCategories
    ∧ (CategoryWithBlogs.mk (Category.mk "tech" "tech" "Tech") [jsPost]).blogs
        = (getPublishedBlogs [jsPost]).filter
            (fun b => b.data.category ==
              (CategoryWithBlogs.mk (Category.mk "tech" "tech" "Tech")
                [jsPost]).category.id) :=
  ⟨(getCategoriesWithBlogs_one_per_category [jsPost] blogCategories).1,
   (getCategoriesWithBlogs_one_per_category [jsPost] blogCategories).2
     _ (by decide)⟩

/-- C6 witness: with the repository's categories and two posts, the counts
sum to the published total and the bound theorem applies. -/
theorem getCategoriesWithBlogs_count_bound_witness :
    (blogCategories.map Category.id).Nodup
    ∧ (((getCategoriesWithBlogs [jsPost, cssPost] blogCategories).map
          (fun cw => cw.blogs.length)).sum
            ≤ (getPublishedBlogs [jsPost, cssPost]).length
      ∧ (((getCategoriesWithBlogs [jsPost, cssPost] blogCategories).map
            (fun cw => cw.blogs.length)).sum
              = (getPublishedBlogs [jsPost, cssPost]).length
          ↔ ∀ b ∈ getPublishedBlogs [jsPost, cssPost],
              ∃ c ∈ blogCategories, b.data.category = c.id)) :=
  ⟨by decide,
   getCategoriesWithBlogs_count_bound [jsPost, cssPost] blogCategories
     (by decide)⟩
